import Mathlib

/-!
Shallow embedding of the chunked pipelined back-projection engine of
`src/tomocupy/reconstruction/backproj_lamfourier_parallel.py`
(class `BackprojLamFourierParallel`), together with proofs of the
specification claims about it.

The embedding follows the source: the three chunk iterators
(`usfft1d_chunks`, `usfft2d_chunks`, `fft2_chunks`) are modelled as folds
of one step function over the step indices `0 .. nchunk+1`; the per-step
stream barrier of the source makes the concurrent step sequentially
consistent, and the three phases of one step touch disjoint buffer slots
(proved below), so the step is modelled as compute-then-drain-then-fill in
program order.  Device double buffers are functions from a slot index
(`k % 2`) and a chunk-local index; host buffers are functions from the
global index along the driven axis.  Values carried along the non-driven
axes are abstract types.  The numerical transform kernels are opaque
computational primitives per the specification and enter as function
parameters.
-/

namespace BackprojLamFourier

/-- Number of chunks along a driven axis: `nchunk = int(np.ceil(aLen / C))`
(integer ceiling division). -/
def nchunkOf (aLen C : Nat) : Nat := (aLen + C - 1) / C

/-- Start offset of chunk `k` along the driven axis: `st = k*C`. -/
def chunkSt (C k : Nat) : Nat := k * C

/-- End offset (exclusive) of chunk `k`: `end = min(aLen, (k+1)*C)`. -/
def chunkEnd (aLen C k : Nat) : Nat := min aLen ((k + 1) * C)

/-- Number of valid entries of chunk `k`: `s = end - st`. -/
def chunkSz (aLen C k : Nat) : Nat := chunkEnd aLen C k - chunkSt C k

theorem le_nchunk_mul (aLen C : Nat) (hC : 0 < C) : aLen ≤ nchunkOf aLen C * C := by
  unfold nchunkOf
  rw [Nat.mul_comm]
  have h1 := Nat.div_add_mod (aLen + C - 1) C
  have h2 : (aLen + C - 1) % C < C := Nat.mod_lt _ hC
  generalize hz : C * ((aLen + C - 1) / C) = z at h1
  generalize hm : (aLen + C - 1) % C = m at h1 h2
  omega

theorem chunkSt_lt_of_lt (aLen C c : Nat) (hC : 0 < C) (hc : c < nchunkOf aLen C) :
    chunkSt C c < aLen := by
  unfold nchunkOf at hc
  unfold chunkSt
  have h1 : (c + 1) * C ≤ ((aLen + C - 1) / C) * C :=
    Nat.mul_le_mul_right _ hc
  have h2 : ((aLen + C - 1) / C) * C ≤ aLen + C - 1 := Nat.div_mul_le_self _ _
  have h3 : (c + 1) * C = c * C + C := Nat.succ_mul c C
  generalize hv : c * C = v at h3
  generalize hw : ((aLen + C - 1) / C) * C = w at h1 h2
  generalize hu : (c + 1) * C = u at h1 h3
  omega

theorem chunkSt_le_chunkEnd (aLen C c : Nat) (hC : 0 < C) (hc : c < nchunkOf aLen C) :
    chunkSt C c ≤ chunkEnd aLen C c := by
  have h1 := chunkSt_lt_of_lt aLen C c hC hc
  unfold chunkEnd
  refine le_min (le_of_lt h1) ?_
  unfold chunkSt
  exact Nat.mul_le_mul_right _ (Nat.le_succ c)

theorem chunkEnd_le (aLen C c : Nat) : chunkEnd aLen C c ≤ aLen := min_le_left _ _

theorem chunkEnd_le_succ_mul (aLen C c : Nat) : chunkEnd aLen C c ≤ (c + 1) * C :=
  min_le_right _ _

theorem chunkSz_le (aLen C c : Nat) : chunkSz aLen C c ≤ C := by
  have h1 := chunkEnd_le_succ_mul aLen C c
  unfold chunkSz chunkSt
  have h2 : (c + 1) * C = c * C + C := Nat.succ_mul c C
  omega

theorem chunkSt_add_lt (aLen C c j : Nat) (hj : j < chunkSz aLen C c) :
    chunkSt C c + j < aLen := by
  have h1 := chunkEnd_le aLen C c
  unfold chunkSz at hj
  omega

theorem chunkSz_eq_zero (aLen C c : Nat) (hC : 0 < C) (hc : nchunkOf aLen C ≤ c) :
    chunkSz aLen C c = 0 := by
  have h1 := le_nchunk_mul aLen C hC
  have h2 : nchunkOf aLen C * C ≤ c * C := Nat.mul_le_mul_right _ hc
  have h3 := chunkEnd_le aLen C c
  unfold chunkSz chunkSt
  generalize hv : c * C = v at h2
  generalize hw : nchunkOf aLen C * C = w at h1 h2
  omega

theorem lt_nchunk_of_sz_pos (aLen C c : Nat) (hC : 0 < C) (h : 0 < chunkSz aLen C c) :
    c < nchunkOf aLen C := by
  by_contra hcon
  have := chunkSz_eq_zero aLen C c hC (le_of_not_lt hcon)
  omega

/-- Every in-range index along the driven axis is covered by a chunk. -/
theorem chunk_cover (aLen C i : Nat) (hC : 0 < C) (hi : i < aLen) :
    ∃ c, c < nchunkOf aLen C ∧ chunkSt C c ≤ i ∧ i < chunkEnd aLen C c := by
  refine ⟨i / C, ?_, ?_, ?_⟩
  · unfold nchunkOf
    rw [Nat.lt_iff_add_one_le, Nat.le_div_iff_mul_le hC]
    have h1 : i / C * C ≤ i := Nat.div_mul_le_self i C
    have h2 : (i / C + 1) * C = i / C * C + C := Nat.succ_mul _ C
    generalize hv : i / C * C = v at h1 h2
    generalize hu : (i / C + 1) * C = u at h2
    omega
  · exact Nat.div_mul_le_self i C
  · unfold chunkEnd
    have h1 := Nat.div_add_mod i C
    have h2 : i % C < C := Nat.mod_lt _ hC
    refine lt_min hi ?_
    have h3 : (i / C + 1) * C = i / C * C + C := Nat.succ_mul _ C
    have h4 : C * (i / C) = i / C * C := Nat.mul_comm _ _
    generalize hv : i / C * C = v at h3 h4
    generalize hu : (i / C + 1) * C = u at h3
    omega

theorem chunkEnd_le_chunkSt_of_lt (aLen C c d : Nat) (h : c < d) :
    chunkEnd aLen C c ≤ chunkSt C d := by
  have h1 := chunkEnd_le_succ_mul aLen C c
  have h2 : (c + 1) * C ≤ d * C := Nat.mul_le_mul_right _ h
  unfold chunkSt
  omega

/-!
Schedule model of one chunk iterator.  Each loop iteration `k` of
`for k in range(nchunk+2)` submits at most three pieces of asynchronous
work (compute on stream2, device-to-host drain on stream3, host-to-device
fill on stream1, exactly under the source's three `if` guards) and then
synchronizes the three streams.  `stepEvents` records the work of step `k`
in program order, `chunkTrace` the whole loop.
-/

/-- One submitted operation or synchronize call of a chunk-iterator step.
`compute c`, `drain c`, `fill c` name the chunk index they operate on;
`sync s` is the synchronize call of stream `s`. -/
inductive Ev where
  | compute (c : Nat)
  | drain (c : Nat)
  | fill (c : Nat)
  | sync (s : Nat)
deriving DecidableEq

/-- Work submitted at step `k` of a chunk iterator with `n` chunks, in
program order, followed by the three stream-synchronize calls. -/
def stepEvents (n k : Nat) : List Ev :=
  (if 0 < k ∧ k < n + 1 then [Ev.compute (k - 1)] else []) ++
    (if 1 < k then [Ev.drain (k - 2)] else []) ++
      (if k < n then [Ev.fill k] else []) ++
        [Ev.sync 1, Ev.sync 2, Ev.sync 3]

/-- The trace of the first `m` steps of a chunk iterator, as pairs of the
step index and the event. -/
def traceUpTo (n m : Nat) : List (Nat × Ev) :=
  (List.range m).foldl (fun acc k => acc ++ (stepEvents n k).map (Prod.mk k)) []

/-- The full trace of a chunk iterator: steps `0 .. n+1`. -/
def chunkTrace (n : Nat) : List (Nat × Ev) := traceUpTo n (n + 2)

/-- Boolean matcher for fill events of chunk `c`. -/
def isFillEv (c : Nat) : Nat × Ev → Bool := fun q =>
  match q.2 with
  | Ev.fill x => x == c
  | _ => false

/-- Boolean matcher for compute events of chunk `c`. -/
def isComputeEv (c : Nat) : Nat × Ev → Bool := fun q =>
  match q.2 with
  | Ev.compute x => x == c
  | _ => false

/-- Boolean matcher for drain events of chunk `c`. -/
def isDrainEv (c : Nat) : Nat × Ev → Bool := fun q =>
  match q.2 with
  | Ev.drain x => x == c
  | _ => false

theorem mem_stepEvents (n k : Nat) (e : Ev) :
    e ∈ stepEvents n k ↔
      (e = Ev.compute (k - 1) ∧ 0 < k ∧ k < n + 1) ∨
        (e = Ev.drain (k - 2) ∧ 1 < k) ∨
          (e = Ev.fill k ∧ k < n) ∨
            e = Ev.sync 1 ∨ e = Ev.sync 2 ∨ e = Ev.sync 3 := by
  unfold stepEvents
  by_cases h1 : 0 < k ∧ k < n + 1 <;> by_cases h2 : 1 < k <;> by_cases h3 : k < n <;>
    simp [h1, h2, h3] <;> tauto

theorem traceUpTo_succ (n m : Nat) :
    traceUpTo n (m + 1) = traceUpTo n m ++ (stepEvents n m).map (Prod.mk m) := by
  unfold traceUpTo
  rw [List.range_succ, List.foldl_append]
  rfl

theorem sync_mem_traceUpTo (n m k : Nat) :
    (k, Ev.sync 1) ∈ traceUpTo n m ↔ k < m := by
  induction m with
  | zero => simp [traceUpTo]
  | succ m ih =>
    rw [traceUpTo_succ, List.mem_append, ih, List.mem_map]
    constructor
    · rintro (h | ⟨e, _, he⟩)
      · omega
      · simp only [Prod.mk.injEq] at he
        omega
    · intro h
      by_cases hk : k < m
      · exact Or.inl hk
      · refine Or.inr ⟨Ev.sync 1, ?_, ?_⟩
        · rw [mem_stepEvents]; tauto
        · have hkm : k = m := by omega
          rw [hkm]

theorem filter_traceUpTo (n : Nat) (p : Nat × Ev → Bool) (K : Nat) (x : Nat × Ev)
    (h : ∀ k, ((stepEvents n k).map (Prod.mk k)).filter p = if k = K then [x] else []) :
    ∀ m, (traceUpTo n m).filter p = if K < m then [x] else [] := by
  intro m
  induction m with
  | zero => simp [traceUpTo]
  | succ m ih =>
    rw [traceUpTo_succ, List.filter_append, ih, h m]
    rcases Nat.lt_trichotomy K m with hlt | heq | hgt
    · simp [hlt, show m ≠ K by omega, show K < m + 1 by omega]
    · simp [show ¬K < m by omega, heq.symm, show K < m + 1 by omega]
    · simp [show ¬K < m by omega, show m ≠ K by omega, show ¬K < m + 1 by omega]

theorem step_filter_fill (n c : Nat) (hc : c < n) (k : Nat) :
    ((stepEvents n k).map (Prod.mk k)).filter (isFillEv c) =
      if k = c then [(c, Ev.fill c)] else [] := by
  have e1 : ((if 0 < k ∧ k < n + 1 then [Ev.compute (k - 1)] else []).map
      (Prod.mk k)).filter (isFillEv c) = [] := by
    split <;> simp [isFillEv]
  have e2 : ((if 1 < k then [Ev.drain (k - 2)] else []).map
      (Prod.mk k)).filter (isFillEv c) = [] := by
    split <;> simp [isFillEv]
  have e3 : (([Ev.sync 1, Ev.sync 2, Ev.sync 3]).map
      (Prod.mk k)).filter (isFillEv c) = [] := by
    simp [isFillEv]
  have e4 : ((if k < n then [Ev.fill k] else []).map
      (Prod.mk k)).filter (isFillEv c) = if k = c then [(c, Ev.fill c)] else [] := by
    by_cases h3 : k < n
    · rw [if_pos h3]
      by_cases h4 : k = c
      · subst h4; simp [isFillEv]
      · simp [isFillEv, h4]
    · rw [if_neg h3]
      simp [show ¬k = c by omega]
  unfold stepEvents
  rw [List.map_append, List.filter_append, List.map_append, List.filter_append,
    List.map_append, List.filter_append, e1, e2, e3, e4]
  simp

theorem step_filter_compute (n c : Nat) (hc : c < n) (k : Nat) :
    ((stepEvents n k).map (Prod.mk k)).filter (isComputeEv c) =
      if k = c + 1 then [(c + 1, Ev.compute c)] else [] := by
  have e2 : ((if 1 < k then [Ev.drain (k - 2)] else []).map
      (Prod.mk k)).filter (isComputeEv c) = [] := by
    split <;> simp [isComputeEv]
  have e3 : ((if k < n then [Ev.fill k] else []).map
      (Prod.mk k)).filter (isComputeEv c) = [] := by
    split <;> simp [isComputeEv]
  have e4 : (([Ev.sync 1, Ev.sync 2, Ev.sync 3]).map
      (Prod.mk k)).filter (isComputeEv c) = [] := by
    simp [isComputeEv]
  have e1 : ((if 0 < k ∧ k < n + 1 then [Ev.compute (k - 1)] else []).map
      (Prod.mk k)).filter (isComputeEv c) =
        if k = c + 1 then [(c + 1, Ev.compute c)] else [] := by
    by_cases h1 : 0 < k ∧ k < n + 1
    · rw [if_pos h1]
      by_cases h4 : k = c + 1
      · subst h4; simp [isComputeEv]
      · have : ¬k - 1 = c := by omega
        simp [isComputeEv, this, h4]
    · rw [if_neg h1]
      have : ¬k = c + 1 := by omega
      simp [this]
  unfold stepEvents
  rw [List.map_append, List.filter_append, List.map_append, List.filter_append,
    List.map_append, List.filter_append, e1, e2, e3, e4]
  simp

theorem step_filter_drain (n c : Nat) (k : Nat) :
    ((stepEvents n k).map (Prod.mk k)).filter (isDrainEv c) =
      if k = c + 2 then [(c + 2, Ev.drain c)] else [] := by
  have e1 : ((if 0 < k ∧ k < n + 1 then [Ev.compute (k - 1)] else []).map
      (Prod.mk k)).filter (isDrainEv c) = [] := by
    split <;> simp [isDrainEv]
  have e3 : ((if k < n then [Ev.fill k] else []).map
      (Prod.mk k)).filter (isDrainEv c) = [] := by
    split <;> simp [isDrainEv]
  have e4 : (([Ev.sync 1, Ev.sync 2, Ev.sync 3]).map
      (Prod.mk k)).filter (isDrainEv c) = [] := by
    simp [isDrainEv]
  have e2 : ((if 1 < k then [Ev.drain (k - 2)] else []).map
      (Prod.mk k)).filter (isDrainEv c) =
        if k = c + 2 then [(c + 2, Ev.drain c)] else [] := by
    by_cases h2 : 1 < k
    · rw [if_pos h2]
      by_cases h4 : k = c + 2
      · subst h4; simp [isDrainEv]
      · have : ¬k - 2 = c := by omega
        simp [isDrainEv, this, h4]
    · rw [if_neg h2]
      have : ¬k = c + 2 := by omega
      simp [this]
  unfold stepEvents
  rw [List.map_append, List.filter_append, List.map_append, List.filter_append,
    List.map_append, List.filter_append, e1, e2, e3, e4]
  simp

/-- The two device-side double buffers of one chunk-iterator stage:
its source (`inp_gpu`) and its destination (`out_gpu`). -/
inductive Buf where
  | src
  | dst
deriving DecidableEq

/-- The stream an event runs on: fills on stream1, computes on stream2,
drains on stream3. -/
def evStream : Ev → Nat
  | Ev.compute _ => 2
  | Ev.drain _ => 3
  | Ev.fill _ => 1
  | Ev.sync s => s

/-- Device-buffer slots accessed by an event: the compute of chunk `c`
reads `inp_gpu[c % 2]` and writes `out_gpu[c % 2]`, the drain of chunk `c`
reads `out_gpu[c % 2]`, the fill of chunk `c` writes `inp_gpu[c % 2]`. -/
def evAccesses : Ev → List (Buf × Nat)
  | Ev.compute c => [(Buf.src, c % 2), (Buf.dst, c % 2)]
  | Ev.drain c => [(Buf.dst, c % 2)]
  | Ev.fill c => [(Buf.src, c % 2)]
  | Ev.sync _ => []

/-- C2: with `nchunk = ceil(aLen / C)`, a chunk iterator runs steps
`k = 0 .. nchunk+1` (exactly the steps of `chunkTrace`); step `k` submits
the compute of chunk `k-1` iff `0 < k < nchunk+1`, the drain of chunk
`k-2` iff `k > 1`, the fill of chunk `k` iff `k < nchunk`, and ends with
the three stream synchronizations; consequently every chunk
`c < nchunk` is filled exactly once (at step `c`), computed exactly once
(at step `c+1`) and drained exactly once (at step `c+2`), in that order. -/
theorem c2_step_schedule (aLen C : Nat) (hC : 0 < C) :
    (∀ k, (k, Ev.sync 1) ∈ chunkTrace (nchunkOf aLen C) ↔ k < nchunkOf aLen C + 2) ∧
      (∀ k c, Ev.compute c ∈ stepEvents (nchunkOf aLen C) k ↔
        0 < k ∧ k < nchunkOf aLen C + 1 ∧ c = k - 1) ∧
      (∀ k c, Ev.drain c ∈ stepEvents (nchunkOf aLen C) k ↔ 1 < k ∧ c = k - 2) ∧
      (∀ k c, Ev.fill c ∈ stepEvents (nchunkOf aLen C) k ↔ k < nchunkOf aLen C ∧ c = k) ∧
      (∀ k, List.IsSuffix [Ev.sync 1, Ev.sync 2, Ev.sync 3]
        (stepEvents (nchunkOf aLen C) k)) ∧
      (∀ c, c < nchunkOf aLen C →
        (chunkTrace (nchunkOf aLen C)).filter (isFillEv c) = [(c, Ev.fill c)] ∧
          (chunkTrace (nchunkOf aLen C)).filter (isComputeEv c) =
            [(c + 1, Ev.compute c)] ∧
          (chunkTrace (nchunkOf aLen C)).filter (isDrainEv c) =
            [(c + 2, Ev.drain c)]) := by
  refine ⟨?_, ?_, ?_, ?_, ?_, ?_⟩
  · intro k
    exact sync_mem_traceUpTo _ _ _
  · intro k c
    rw [mem_stepEvents]
    constructor
    · rintro (⟨he, h⟩ | ⟨he, _⟩ | ⟨he, _⟩ | he | he | he) <;> first
        | (injection he with h1; exact ⟨h.1, h.2, h1⟩)
        | (exact absurd he (by simp))
    · rintro ⟨h1, h2, rfl⟩
      exact Or.inl ⟨rfl, h1, h2⟩
  · intro k c
    rw [mem_stepEvents]
    constructor
    · rintro (⟨he, _⟩ | ⟨he, h⟩ | ⟨he, _⟩ | he | he | he) <;> first
        | (injection he with h1; exact ⟨h, h1⟩)
        | (exact absurd he (by simp))
    · rintro ⟨h1, rfl⟩
      exact Or.inr (Or.inl ⟨rfl, h1⟩)
  · intro k c
    rw [mem_stepEvents]
    constructor
    · rintro (⟨he, _⟩ | ⟨he, _⟩ | ⟨he, h⟩ | he | he | he) <;> first
        | (injection he with h1; exact ⟨h, h1⟩)
        | (exact absurd he (by simp))
    · rintro ⟨h1, rfl⟩
      exact Or.inr (Or.inr (Or.inl ⟨rfl, h1⟩))
  · intro k
    refine ⟨(if 0 < k ∧ k < nchunkOf aLen C + 1 then [Ev.compute (k - 1)] else []) ++
      ((if 1 < k then [Ev.drain (k - 2)] else []) ++
        (if k < nchunkOf aLen C then [Ev.fill k] else [])), ?_⟩
    unfold stepEvents
    simp [List.append_assoc]
  · intro c hc
    refine ⟨?_, ?_, ?_⟩
    · have h := filter_traceUpTo (nchunkOf aLen C) (isFillEv c) c (c, Ev.fill c)
        (step_filter_fill _ c hc) (nchunkOf aLen C + 2)
      rw [chunkTrace, h, if_pos (by omega)]
    · have h := filter_traceUpTo (nchunkOf aLen C) (isComputeEv c) (c + 1)
        (c + 1, Ev.compute c) (step_filter_compute _ c hc) (nchunkOf aLen C + 2)
      rw [chunkTrace, h, if_pos (by omega)]
    · have h := filter_traceUpTo (nchunkOf aLen C) (isDrainEv c) (c + 2)
        (c + 2, Ev.drain c) (step_filter_drain _ c) (nchunkOf aLen C + 2)
      rw [chunkTrace, h, if_pos (by omega)]

/-- Witness for C2 at the spec's boundary example `ntheta = 90`,
`nthetac = 32` (three chunks, the last one short). -/
theorem c2_step_schedule_witness :
    (chunkTrace (nchunkOf 90 32)).filter (isFillEv 2) = [(2, Ev.fill 2)] :=
  ((c2_step_schedule 90 32 (by decide)).2.2.2.2.2 2 (by decide)).1

/-- C3: within one step `k`, operations submitted to distinct streams
access pairwise-distinct slots of each double-buffered device array: the
compute (stream2) reads source slot and writes destination slot `(k-1)%2`,
the drain (stream3) reads destination slot `(k-2)%2`, and the fill
(stream1) writes source slot `k%2`. -/
theorem c3_slot_disjoint (aLen C k : Nat) :
    (∀ c, Ev.compute c ∈ stepEvents (nchunkOf aLen C) k →
      evAccesses (Ev.compute c) = [(Buf.src, (k - 1) % 2), (Buf.dst, (k - 1) % 2)]) ∧
      (∀ c, Ev.drain c ∈ stepEvents (nchunkOf aLen C) k →
        evAccesses (Ev.drain c) = [(Buf.dst, (k - 2) % 2)]) ∧
      (∀ c, Ev.fill c ∈ stepEvents (nchunkOf aLen C) k →
        evAccesses (Ev.fill c) = [(Buf.src, k % 2)]) ∧
      (∀ e1, e1 ∈ stepEvents (nchunkOf aLen C) k →
        ∀ e2, e2 ∈ stepEvents (nchunkOf aLen C) k →
          evStream e1 ≠ evStream e2 →
            ∀ a, a ∈ evAccesses e1 → a ∉ evAccesses e2) := by
  refine ⟨?_, ?_, ?_, ?_⟩
  · intro c hc
    rcases (mem_stepEvents _ _ _).mp hc with ⟨he, _⟩ | ⟨he, _⟩ | ⟨he, _⟩ | he | he | he <;>
      first
        | (injection he with h1; subst h1; rfl)
        | (exact absurd he (by simp))
  · intro c hc
    rcases (mem_stepEvents _ _ _).mp hc with ⟨he, _⟩ | ⟨he, _⟩ | ⟨he, _⟩ | he | he | he <;>
      first
        | (injection he with h1; subst h1; rfl)
        | (exact absurd he (by simp))
  · intro c hc
    rcases (mem_stepEvents _ _ _).mp hc with ⟨he, _⟩ | ⟨he, _⟩ | ⟨he, _⟩ | he | he | he <;>
      first
        | (injection he with h1; subst h1; rfl)
        | (exact absurd he (by simp))
  · intro e1 h1 e2 h2 hs a ha hb
    rcases (mem_stepEvents _ _ _).mp h1 with ⟨he1, hg1⟩ | ⟨he1, hg1⟩ | ⟨he1, hg1⟩ | he1 | he1 | he1 <;>
      rcases (mem_stepEvents _ _ _).mp h2 with ⟨he2, hg2⟩ | ⟨he2, hg2⟩ | ⟨he2, hg2⟩ | he2 | he2 | he2 <;>
        subst he1 <;> subst he2 <;>
          first
            | exact hs rfl
            | exact absurd ha (List.not_mem_nil a)
            | exact absurd hb (List.not_mem_nil a)
            | (simp only [evAccesses, List.mem_cons, List.not_mem_nil, or_false] at ha hb
               first
                 | (rcases ha with rfl | rfl <;>
                     first
                       | (rcases hb with hb | hb <;> simp at hb <;> omega)
                       | (simp at hb <;> omega))
                 | (subst ha
                    first
                      | (rcases hb with hb | hb <;> simp at hb <;> omega)
                      | (simp at hb <;> omega)))

/-- Witness for C3 at step `k = 2` of a two-chunk iterator: the compute
of chunk 1 (stream2) and the drain of chunk 0 (stream3) touch different
slots of the destination double buffer. -/
theorem c3_slot_disjoint_witness : (Buf.src, 1) ∉ evAccesses (Ev.drain 0) :=
  (c3_slot_disjoint 4 2 2).2.2.2 (Ev.compute 1) (by decide) (Ev.drain 0)
    (by decide) (by decide) (Buf.src, 1) (by decide)

/-!
State model of the two contiguous chunk iterators (`usfft1d_chunks` and
`fft2_chunks`).  The driven-axis element type is abstract: for
`usfft1d_chunks` an element is one `(deth//2+1, n2)` input slab, for
`fft2_chunks` one `(deth, detw)` projection.  `out` is the host
destination buffer (indexed by the global driven-axis index), `gin`/`gout`
are the device double buffers (indexed by slot `k % 2` and the chunk-local
index).
-/

/-- Host/device buffer state of one contiguous chunk iterator. -/
structure PipeSt (α β : Type) where
  out : Nat → β
  gin : Nat → Nat → α
  gout : Nat → Nat → β

/-- Compute phase of step `k` (stream2, guard `k > 0 and k < nchunk+1`):
`fIn` is the in-place update of the device input slot (`fbp_filter_center`
for `fft2_chunks`, the identity for `usfft1d_chunks`, which leaves
`inp_gpu` unchanged), `fOut` computes the device output slot from the
updated input slot (the transform kernel call). -/
def computePhase {α β : Type} (n k : Nat) (fIn : (Nat → α) → Nat → α)
    (fOut : (Nat → α) → Nat → β) (s : PipeSt α β) : PipeSt α β :=
  if 0 < k ∧ k < n + 1 then
    { out := s.out,
      gin := fun p j =>
        if p = (k - 1) % 2 then fIn (s.gin ((k - 1) % 2)) j else s.gin p j,
      gout := fun p j =>
        if p = (k - 1) % 2 then fOut (fIn (s.gin ((k - 1) % 2))) j else s.gout p j }
  else s

/-- Drain phase of step `k` (stream3, guard `k > 1`):
`out_gpu[(k-2)%2,:s].get(out=out_t[st:end])`. -/
def drainPhase {α β : Type} (aLen C k : Nat) (s : PipeSt α β) : PipeSt α β :=
  if 1 < k then
    { s with out := fun i =>
        if chunkSt C (k - 2) ≤ i ∧ i < chunkEnd aLen C (k - 2) then
          s.gout ((k - 2) % 2) (i - chunkSt C (k - 2))
        else s.out i }
  else s

/-- Fill phase of step `k` (stream1, guard `k < nchunk`):
`inp_gpu[k%2,:s].set(inp_t[st:end])`; entries beyond `s` keep their stale
values. -/
def fillPhase {α β : Type} (aLen C n k : Nat) (inp : Nat → α) (s : PipeSt α β) :
    PipeSt α β :=
  if k < n then
    { s with gin := fun p j =>
        if p = k % 2 ∧ j < chunkSz aLen C k then inp (chunkSt C k + j) else s.gin p j }
  else s

/-- One loop iteration of a contiguous chunk iterator.  The source submits
the three phases on three streams and synchronizes all of them before the
next iteration; since the phases of one step touch pairwise-disjoint
buffer slots (`c3_slot_disjoint`), the step equals their sequential
composition in program order. -/
def pipeStep {α β : Type} (aLen C n k : Nat) (fIn : (Nat → α) → Nat → α)
    (fOut : (Nat → α) → Nat → β) (inp : Nat → α) (s : PipeSt α β) : PipeSt α β :=
  fillPhase aLen C n k inp (drainPhase aLen C k (computePhase n k fIn fOut s))

/-- The first `m` loop iterations of a contiguous chunk iterator. -/
def pipeIter {α β : Type} (aLen C : Nat) (fIn : (Nat → α) → Nat → α)
    (fOut : (Nat → α) → Nat → β) (inp : Nat → α) (init : PipeSt α β) (m : Nat) :
    PipeSt α β :=
  (List.range m).foldl
    (fun s k => pipeStep aLen C (nchunkOf aLen C) k fIn fOut inp s) init

/-- The whole loop `for k in range(nchunk+2)` of a contiguous chunk
iterator. -/
def pipeRun {α β : Type} (aLen C : Nat) (fIn : (Nat → α) → Nat → α)
    (fOut : (Nat → α) → Nat → β) (inp : Nat → α) (init : PipeSt α β) : PipeSt α β :=
  pipeIter aLen C fIn fOut inp init (nchunkOf aLen C + 2)

/-- `usfft1d_chunks` (adjoint direction, as called from `rec_lam`): the
driven axis is `n1` with chunk size `n1c`; the compute phase only calls
`usfft1d_adj(out_gpu[(k-1)%2], inp_gpu[(k-1)%2], phi, stream2)`, leaving
the input slot unchanged.  The kernel (with its angle `phi` applied) is
the opaque parameter `usfft1dAdj`. -/
def usfft1d_chunks {α β : Type} (n1 n1c : Nat) (usfft1dAdj : (Nat → α) → Nat → β)
    (inp_t : Nat → α) (init : PipeSt α β) : PipeSt α β :=
  pipeRun n1 n1c (fun g => g) usfft1dAdj inp_t init

/-- `fft2_chunks`: the driven axis is `ntheta` with chunk size `nthetac`;
the compute phase first applies `fbp_filter_center` in place to the input
slot (`fbpFilter`) and then `fft2d_fwd` (`fft2dFwd`) into the output
slot. -/
def fft2_chunks {α β : Type} (ntheta nthetac : Nat)
    (fbpFilter : (Nat → α) → Nat → α) (fft2dFwd : (Nat → α) → Nat → β)
    (inp : Nat → α) (init : PipeSt α β) : PipeSt α β :=
  pipeRun ntheta nthetac fbpFilter fft2dFwd inp init

theorem pipeIter_succ {α β : Type} (aLen C : Nat) (fIn : (Nat → α) → Nat → α)
    (fOut : (Nat → α) → Nat → β) (inp : Nat → α) (init : PipeSt α β) (m : Nat) :
    pipeIter aLen C fIn fOut inp init (m + 1) =
      pipeStep aLen C (nchunkOf aLen C) m fIn fOut inp
        (pipeIter aLen C fIn fOut inp init m) := by
  unfold pipeIter
  rw [List.range_succ, List.foldl_append]
  rfl

theorem computePhase_out {α β : Type} (n k : Nat) (fIn : (Nat → α) → Nat → α)
    (fOut : (Nat → α) → Nat → β) (s : PipeSt α β) :
    (computePhase n k fIn fOut s).out = s.out := by
  unfold computePhase; split <;> rfl

theorem computePhase_gout_self {α β : Type} (n k : Nat) (fIn : (Nat → α) → Nat → α)
    (fOut : (Nat → α) → Nat → β) (s : PipeSt α β) (h : 0 < k ∧ k < n + 1) (j : Nat) :
    (computePhase n k fIn fOut s).gout ((k - 1) % 2) j =
      fOut (fIn (s.gin ((k - 1) % 2))) j := by
  unfold computePhase
  rw [if_pos h]
  simp

theorem computePhase_gout_ne {α β : Type} (n k : Nat) (fIn : (Nat → α) → Nat → α)
    (fOut : (Nat → α) → Nat → β) (s : PipeSt α β) (p : Nat) (hp : p ≠ (k - 1) % 2)
    (j : Nat) : (computePhase n k fIn fOut s).gout p j = s.gout p j := by
  unfold computePhase
  split
  · simp [hp]
  · rfl

theorem drainPhase_gin {α β : Type} (aLen C k : Nat) (s : PipeSt α β) :
    (drainPhase aLen C k s).gin = s.gin := by
  unfold drainPhase; split <;> rfl

theorem drainPhase_gout {α β : Type} (aLen C k : Nat) (s : PipeSt α β) :
    (drainPhase aLen C k s).gout = s.gout := by
  unfold drainPhase; split <;> rfl

theorem drainPhase_out_in {α β : Type} (aLen C k : Nat) (s : PipeSt α β) (i : Nat)
    (h2 : 1 < k) (hlo : chunkSt C (k - 2) ≤ i) (hhi : i < chunkEnd aLen C (k - 2)) :
    (drainPhase aLen C k s).out i = s.gout ((k - 2) % 2) (i - chunkSt C (k - 2)) := by
  unfold drainPhase
  rw [if_pos h2]
  simp only
  rw [if_pos ⟨hlo, hhi⟩]

theorem drainPhase_out_lo {α β : Type} (aLen C k : Nat) (s : PipeSt α β) (i : Nat)
    (hi : i < chunkSt C (k - 2)) : (drainPhase aLen C k s).out i = s.out i := by
  unfold drainPhase
  split
  · simp only
    rw [if_neg (by omega)]
  · rfl

theorem fillPhase_out {α β : Type} (aLen C n k : Nat) (inp : Nat → α)
    (s : PipeSt α β) : (fillPhase aLen C n k inp s).out = s.out := by
  unfold fillPhase; split <;> rfl

theorem fillPhase_gout {α β : Type} (aLen C n k : Nat) (inp : Nat → α)
    (s : PipeSt α β) : (fillPhase aLen C n k inp s).gout = s.gout := by
  unfold fillPhase; split <;> rfl

theorem fillPhase_gin_self {α β : Type} (aLen C n k : Nat) (inp : Nat → α)
    (s : PipeSt α β) (h : k < n) (j : Nat) (hj : j < chunkSz aLen C k) :
    (fillPhase aLen C n k inp s).gin (k % 2) j = inp (chunkSt C k + j) := by
  unfold fillPhase
  rw [if_pos h]
  simp [hj]

/-- Pipeline invariant of a contiguous chunk iterator after `m` steps:
the last-filled input slot holds its chunk of the host source, the
last-computed output slot holds the transformed chunk, and every chunk
drained so far sits transformed in the host destination.  `Ff`/`F` are
the elementwise actions of `fIn`/`fOut` along the driven axis (the
hypothesis that the kernels commute with slicing along that axis). -/
theorem pipeIter_inv {α β : Type} (aLen C : Nat) (hC : 0 < C)
    (fIn : (Nat → α) → Nat → α) (fOut : (Nat → α) → Nat → β)
    (Ff : α → α) (F : α → β)
    (hIn : ∀ g j, fIn g j = Ff (g j)) (hOut : ∀ g j, fOut g j = F (g j))
    (inp : Nat → α) (init : PipeSt α β) (m : Nat) :
    (∀ c, c + 1 = m → c < nchunkOf aLen C → ∀ j, j < chunkSz aLen C c →
        (pipeIter aLen C fIn fOut inp init m).gin (c % 2) j = inp (chunkSt C c + j)) ∧
      (∀ c, c + 2 = m → c < nchunkOf aLen C → ∀ j, j < chunkSz aLen C c →
        (pipeIter aLen C fIn fOut inp init m).gout (c % 2) j =
          F (Ff (inp (chunkSt C c + j)))) ∧
      (∀ c j, c + 3 ≤ m → j < chunkSz aLen C c →
        (pipeIter aLen C fIn fOut inp init m).out (chunkSt C c + j) =
          F (Ff (inp (chunkSt C c + j)))) := by
  induction m with
  | zero => exact ⟨fun c hc => by omega, fun c hc => by omega, fun c j hc => by omega⟩
  | succ m ih =>
    obtain ⟨ihA, ihB, ihC⟩ := ih
    rw [pipeIter_succ]
    set S := pipeIter aLen C fIn fOut inp init m with hS
    refine ⟨?_, ?_, ?_⟩
    · -- the fill of step m writes chunk m into slot m % 2
      intro c hc hcn j hj
      have hcm : c = m := by omega
      subst hcm
      unfold pipeStep
      exact fillPhase_gin_self _ _ _ _ _ _ hcn j hj
    · -- the compute of step m transforms chunk m-1 in slot (m-1) % 2
      intro c hc hcn j hj
      have hcm : m = c + 1 := by omega
      subst hcm
      unfold pipeStep
      rw [fillPhase_gout, drainPhase_gout]
      have hg : 0 < c + 1 ∧ c + 1 < nchunkOf aLen C + 1 := by omega
      have h1 := computePhase_gout_self (nchunkOf aLen C) (c + 1) fIn fOut S hg j
      simp only [Nat.add_sub_cancel] at h1
      rw [h1, hOut, hIn]
      rw [ihA c rfl hcn j hj]
    · -- the drain of step m copies transformed chunk m-2 to the host
      intro c j hc hj
      unfold pipeStep
      rw [fillPhase_out]
      have hcn : c < nchunkOf aLen C :=
        lt_nchunk_of_sz_pos aLen C c hC (by omega)
      by_cases hold : c + 3 ≤ m
      · -- an earlier chunk: the drain of step m writes a disjoint range
        have h2 : 1 < m := by omega
        have hdisj : chunkSt C c + j < chunkSt C (m - 2) := by
          have h3 : chunkEnd aLen C c ≤ chunkSt C (m - 2) :=
            chunkEnd_le_chunkSt_of_lt aLen C c (m - 2) (by omega)
          have h4 : chunkSt C c + j < chunkEnd aLen C c := by
            unfold chunkSz at hj; omega
          omega
        rw [drainPhase_out_lo _ _ _ _ _ hdisj, computePhase_out]
        exact ihC c j hold hj
      · -- the chunk drained at step m itself: c = m - 2
        have hcm : m = c + 2 := by omega
        subst hcm
        have h2 : 1 < c + 2 := by omega
        have hlo : chunkSt C c ≤ chunkSt C c + j := Nat.le_add_right _ _
        have hhi : chunkSt C c + j < chunkEnd aLen C c := by
          unfold chunkSz at hj; omega
        have h5 := drainPhase_out_in aLen C (c + 2)
          (computePhase (nchunkOf aLen C) (c + 2) fIn fOut S) (chunkSt C c + j) h2
        simp only [Nat.add_sub_cancel] at h5
        rw [h5 hlo hhi]
        have hne : c % 2 ≠ (c + 2 - 1) % 2 := by omega
        rw [computePhase_gout_ne _ _ _ _ _ _ hne]
        have h6 := ihB c rfl hcn (chunkSt C c + j - chunkSt C c) (by omega)
        rw [Nat.add_sub_cancel_left] at h6
        rw [Nat.add_sub_cancel_left]
        exact h6

/-- A contiguous chunk iterator leaves in the host destination exactly the
whole-array transform of the host source, provided the slot kernels act
elementwise along the driven axis (commute with slicing). -/
theorem pipeRun_out {α β : Type} (aLen C : Nat) (hC : 0 < C)
    (fIn : (Nat → α) → Nat → α) (fOut : (Nat → α) → Nat → β)
    (Ff : α → α) (F : α → β)
    (hIn : ∀ g j, fIn g j = Ff (g j)) (hOut : ∀ g j, fOut g j = F (g j))
    (inp : Nat → α) (init : PipeSt α β) :
    ∀ i, i < aLen → (pipeRun aLen C fIn fOut inp init).out i = F (Ff (inp i)) := by
  intro i hi
  obtain ⟨c, hcn, hlo, hhi⟩ := chunk_cover aLen C i hC hi
  have h1 := (pipeIter_inv aLen C hC fIn fOut Ff F hIn hOut inp init
    (nchunkOf aLen C + 2)).2.2 c (i - chunkSt C c) (by omega)
    (by unfold chunkSz; omega)
  rw [Nat.add_sub_cancel' hlo] at h1
  exact h1

/-!
State model of `usfft2d_chunks` (adjoint direction, as called from
`rec_lam`).  The driven axis is the detector-row frequency axis of length
`deth//2+1`, chunked by `dethc`.  An `α` value is one `(detw//2+1,)` row
of the host input `pa22` (`inp[j, i]`, `j < ntheta` theta-rows, `i` the
driven index); a `β` value is one `(n2,)` row of the host output `pa11`
(`out[j, i]`, `j < n1`).  The device input slot has `2*ntheta` rows: rows
`j < ntheta` carry the chunk of `inp`, rows `ntheta ≤ j < 2*ntheta` carry
the flipped mirror region for handling the r2c FFT.
-/

/-- Host/device buffer state of `usfft2d_chunks`. -/
structure USt (α β : Type) where
  out : Nat → Nat → β
  gin : Nat → Nat → Nat → α
  gout : Nat → Nat → Nat → β

/-- Compute phase of `usfft2d_chunks` step `k`:
`usfft2d_adj(out_gpu[(k-1)%2], inp_gpu[(k-1)%2], theta, phi, k-1, stream2)`.
The kernel `K` receives the chunk index `k-1` and the whole input slot. -/
def usfft2dCompute {α β : Type} (n k : Nat)
    (K : Nat → (Nat → Nat → α) → Nat → Nat → β) (s : USt α β) : USt α β :=
  if 0 < k ∧ k < n + 1 then
    { s with gout := fun p j t =>
        if p = (k - 1) % 2 then K (k - 1) (s.gin ((k - 1) % 2)) j t else s.gout p j t }
  else s

/-- Drain phase of `usfft2d_chunks` step `k`: for every output row
`j < n1`, `out_gpu[(k-2)%2, j, :s].get(out=out[j, st:end])`. -/
def usfft2dDrain {α β : Type} (deth dethc n1 k : Nat) (s : USt α β) : USt α β :=
  if 1 < k then
    { s with out := fun j i =>
        if j < n1 ∧ chunkSt dethc (k - 2) ≤ i ∧ i < chunkEnd (deth / 2 + 1) dethc (k - 2)
        then s.gout ((k - 2) % 2) j (i - chunkSt dethc (k - 2))
        else s.out j i }
  else s

/-- Fill phase of `usfft2d_chunks` step `k`: for every theta-row
`j < ntheta`, `inp_gpu[k%2,j,:s].set(inp[j,st:end])`, and the flipped
mirror write into row `j + ntheta`: for `k == 0` the positions `-s:-1`
receive `inp[j, deth-end+1 : deth-st+1]` (clipped to `s-1` entries) and
position `-1` receives `inp[j, 0]` (the one-off correction avoiding
wraparound), otherwise positions `-s:` receive
`inp[j, deth-end+1 : deth-st+1]`. -/
def usfft2dFill {α β : Type} (deth ntheta dethc n k : Nat) (inp : Nat → Nat → α)
    (s : USt α β) : USt α β :=
  if k < n then
    { s with gin := fun p j t =>
        if p = k % 2 then
          if j < ntheta ∧ t < chunkSz (deth / 2 + 1) dethc k then
            inp j (chunkSt dethc k + t)
          else if ntheta ≤ j ∧ j < 2 * ntheta then
            (if k = 0 then
              if dethc - chunkSz (deth / 2 + 1) dethc k ≤ t ∧ t < dethc - 1 then
                inp (j - ntheta)
                  (deth - chunkEnd (deth / 2 + 1) dethc k + 1 +
                    (t - (dethc - chunkSz (deth / 2 + 1) dethc k)))
              else if t = dethc - 1 then inp (j - ntheta) 0
              else s.gin p j t
            else
              if dethc - chunkSz (deth / 2 + 1) dethc k ≤ t ∧ t < dethc then
                inp (j - ntheta)
                  (deth - chunkEnd (deth / 2 + 1) dethc k + 1 +
                    (t - (dethc - chunkSz (deth / 2 + 1) dethc k)))
              else s.gin p j t)
          else s.gin p j t
        else s.gin p j t }
  else s

/-- One loop iteration of `usfft2d_chunks` (compute, drain, fill on their
three streams, then the stream barrier; sequentialized as in
`pipeStep`). -/
def usfft2dStep {α β : Type} (deth ntheta n1 dethc k : Nat)
    (K : Nat → (Nat → Nat → α) → Nat → Nat → β) (inp : Nat → Nat → α)
    (s : USt α β) : USt α β :=
  usfft2dFill deth ntheta dethc (nchunkOf (deth / 2 + 1) dethc) k inp
    (usfft2dDrain deth dethc n1 k
      (usfft2dCompute (nchunkOf (deth / 2 + 1) dethc) k K s))

/-- The first `m` loop iterations of `usfft2d_chunks`. -/
def usfft2dIter {α β : Type} (deth ntheta n1 dethc : Nat)
    (K : Nat → (Nat → Nat → α) → Nat → Nat → β) (inp : Nat → Nat → α)
    (init : USt α β) (m : Nat) : USt α β :=
  (List.range m).foldl (fun s k => usfft2dStep deth ntheta n1 dethc k K inp s) init

/-- `usfft2d_chunks`: the whole loop `for k in range(nchunk+2)` with
`nchunk = ceil((deth//2+1)/dethc)`. -/
def usfft2d_chunks {α β : Type} (deth ntheta n1 dethc : Nat)
    (K : Nat → (Nat → Nat → α) → Nat → Nat → β) (inp : Nat → Nat → α)
    (init : USt α β) : USt α β :=
  usfft2dIter deth ntheta n1 dethc K inp init (nchunkOf (deth / 2 + 1) dethc + 2)

/-- The value the fill phase of chunk `c` puts at offset `t` of the mirror
region of theta-row `j + ntheta` (positions `dethc - s + t`, `t < s`). -/
def mirrorVal {α : Type} (deth ntheta dethc : Nat) (inp : Nat → Nat → α)
    (c j t : Nat) : α :=
  if c = 0 ∧ t = chunkSz (deth / 2 + 1) dethc c - 1 then inp j 0
  else inp j (deth - chunkEnd (deth / 2 + 1) dethc c + 1 + t)

/-- A device input slot holds chunk `c` of the host source of
`usfft2d_chunks`: the primary theta-rows hold `inp[j, st:end]` and the
mirror rows hold the flipped region. -/
def FilledOK {α : Type} (deth ntheta dethc : Nat) (inp : Nat → Nat → α) (c : Nat)
    (slot : Nat → Nat → α) : Prop :=
  (∀ j, j < ntheta → ∀ t, t < chunkSz (deth / 2 + 1) dethc c →
    slot j t = inp j (chunkSt dethc c + t)) ∧
    (∀ j, j < ntheta → ∀ t, t < chunkSz (deth / 2 + 1) dethc c →
      slot (j + ntheta) (dethc - chunkSz (deth / 2 + 1) dethc c + t) =
        mirrorVal deth ntheta dethc inp c j t)

theorem usfft2dIter_succ {α β : Type} (deth ntheta n1 dethc : Nat)
    (K : Nat → (Nat → Nat → α) → Nat → Nat → β) (inp : Nat → Nat → α)
    (init : USt α β) (m : Nat) :
    usfft2dIter deth ntheta n1 dethc K inp init (m + 1) =
      usfft2dStep deth ntheta n1 dethc m K inp
        (usfft2dIter deth ntheta n1 dethc K inp init m) := by
  unfold usfft2dIter
  rw [List.range_succ, List.foldl_append]
  rfl

theorem usfft2dCompute_out {α β : Type} (n k : Nat)
    (K : Nat → (Nat → Nat → α) → Nat → Nat → β) (s : USt α β) :
    (usfft2dCompute n k K s).out = s.out := by
  unfold usfft2dCompute; split <;> rfl

theorem usfft2dCompute_gin {α β : Type} (n k : Nat)
    (K : Nat → (Nat → Nat → α) → Nat → Nat → β) (s : USt α β) :
    (usfft2dCompute n k K s).gin = s.gin := by
  unfold usfft2dCompute; split <;> rfl

theorem usfft2dCompute_gout_self {α β : Type} (n k : Nat)
    (K : Nat → (Nat → Nat → α) → Nat → Nat → β) (s : USt α β)
    (h : 0 < k ∧ k < n + 1) (j t : Nat) :
    (usfft2dCompute n k K s).gout ((k - 1) % 2) j t =
      K (k - 1) (s.gin ((k - 1) % 2)) j t := by
  unfold usfft2dCompute
  rw [if_pos h]
  simp

theorem usfft2dCompute_gout_ne {α β : Type} (n k : Nat)
    (K : Nat → (Nat → Nat → α) → Nat → Nat → β) (s : USt α β) (p : Nat)
    (hp : p ≠ (k - 1) % 2) (j t : Nat) :
    (usfft2dCompute n k K s).gout p j t = s.gout p j t := by
  unfold usfft2dCompute
  split
  · simp [hp]
  · rfl

theorem usfft2dDrain_gin {α β : Type} (deth dethc n1 k : Nat) (s : USt α β) :
    (usfft2dDrain deth dethc n1 k s).gin = s.gin := by
  unfold usfft2dDrain; split <;> rfl

theorem usfft2dDrain_gout {α β : Type} (deth dethc n1 k : Nat) (s : USt α β) :
    (usfft2dDrain deth dethc n1 k s).gout = s.gout := by
  unfold usfft2dDrain; split <;> rfl

theorem usfft2dDrain_out_in {α β : Type} (deth dethc n1 k : Nat) (s : USt α β)
    (j i : Nat) (h2 : 1 < k) (hj : j < n1) (hlo : chunkSt dethc (k - 2) ≤ i)
    (hhi : i < chunkEnd (deth / 2 + 1) dethc (k - 2)) :
    (usfft2dDrain deth dethc n1 k s).out j i =
      s.gout ((k - 2) % 2) j (i - chunkSt dethc (k - 2)) := by
  unfold usfft2dDrain
  rw [if_pos h2]
  simp only
  rw [if_pos ⟨hj, hlo, hhi⟩]

theorem usfft2dDrain_out_lo {α β : Type} (deth dethc n1 k : Nat) (s : USt α β)
    (j i : Nat) (hi : i < chunkSt dethc (k - 2)) :
    (usfft2dDrain deth dethc n1 k s).out j i = s.out j i := by
  unfold usfft2dDrain
  split
  · simp only
    rw [if_neg (by omega)]
  · rfl

theorem usfft2dFill_out {α β : Type} (deth ntheta dethc n k : Nat)
    (inp : Nat → Nat → α) (s : USt α β) :
    (usfft2dFill deth ntheta dethc n k inp s).out = s.out := by
  unfold usfft2dFill; split <;> rfl

theorem usfft2dFill_gout {α β : Type} (deth ntheta dethc n k : Nat)
    (inp : Nat → Nat → α) (s : USt α β) :
    (usfft2dFill deth ntheta dethc n k inp s).gout = s.gout := by
  unfold usfft2dFill; split <;> rfl

/-- The fill phase of chunk `k` establishes `FilledOK` for slot `k % 2`. -/
theorem usfft2dFill_filledOK {α β : Type} (deth ntheta dethc n k : Nat)
    (inp : Nat → Nat → α) (s : USt α β) (hk : k < n) :
    FilledOK deth ntheta dethc inp k
      ((usfft2dFill deth ntheta dethc n k inp s).gin (k % 2)) := by
  have hsz : chunkSz (deth / 2 + 1) dethc k ≤ dethc := chunkSz_le _ _ _
  have e1 : ∀ j : Nat, j + ntheta - ntheta = j := fun j => by omega
  constructor
  · intro j hj t ht
    unfold usfft2dFill
    rw [if_pos hk]
    simp [hj, ht]
  · intro j hj t ht
    have e3 : dethc - chunkSz (deth / 2 + 1) dethc k + t -
        (dethc - chunkSz (deth / 2 + 1) dethc k) = t := by omega
    unfold usfft2dFill
    rw [if_pos hk]
    simp only
    rw [if_true]
    rw [if_neg (by omega)]
    rw [if_pos (by omega)]
    by_cases h0 : k = 0
    · rw [if_pos h0]
      by_cases hlast : t = chunkSz (deth / 2 + 1) dethc k - 1
      · rw [if_neg (by omega), if_pos (by omega)]
        unfold mirrorVal
        rw [if_pos ⟨h0, hlast⟩, e1]
      · rw [if_pos (by omega)]
        rw [e1, e3]
        unfold mirrorVal
        rw [if_neg (by omega)]
    · rw [if_neg h0]
      rw [if_pos (by omega)]
      rw [e1, e3]
      unfold mirrorVal
      rw [if_neg (by omega)]

/-- Pipeline invariant of `usfft2d_chunks` after `m` steps, analogous to
`pipeIter_inv`.  `F j i` is the whole-array transform of the host source
(`j < n1` output rows, `i < deth/2+1` driven index); the hypothesis `hK`
states that the kernel commutes with slicing along the driven axis: on any
slot correctly filled with chunk `c` it produces the rows
`[st, end)` of `F`. -/
theorem usfft2dIter_inv {α β : Type} (deth ntheta n1 dethc : Nat) (hC : 0 < dethc)
    (K : Nat → (Nat → Nat → α) → Nat → Nat → β) (F : Nat → Nat → β)
    (inp : Nat → Nat → α) (init : USt α β)
    (hK : ∀ c, c < nchunkOf (deth / 2 + 1) dethc →
      ∀ g, FilledOK deth ntheta dethc inp c g →
        ∀ j, j < n1 → ∀ t, t < chunkSz (deth / 2 + 1) dethc c →
          K c g j t = F j (chunkSt dethc c + t)) (m : Nat) :
    (∀ c, c + 1 = m → c < nchunkOf (deth / 2 + 1) dethc →
        FilledOK deth ntheta dethc inp c
          ((usfft2dIter deth ntheta n1 dethc K inp init m).gin (c % 2))) ∧
      (∀ c, c + 2 = m → c < nchunkOf (deth / 2 + 1) dethc →
        ∀ j, j < n1 → ∀ t, t < chunkSz (deth / 2 + 1) dethc c →
          (usfft2dIter deth ntheta n1 dethc K inp init m).gout (c % 2) j t =
            F j (chunkSt dethc c + t)) ∧
      (∀ c t, c + 3 ≤ m → t < chunkSz (deth / 2 + 1) dethc c → ∀ j, j < n1 →
        (usfft2dIter deth ntheta n1 dethc K inp init m).out j (chunkSt dethc c + t) =
          F j (chunkSt dethc c + t)) := by
  induction m with
  | zero =>
    exact ⟨fun c hc => by omega, fun c hc => by omega, fun c t hc => by omega⟩
  | succ m ih =>
    obtain ⟨ihA, ihB, ihC⟩ := ih
    rw [usfft2dIter_succ]
    set S := usfft2dIter deth ntheta n1 dethc K inp init m with hS
    refine ⟨?_, ?_, ?_⟩
    · -- the fill of step m establishes FilledOK for chunk m
      intro c hc hcn
      have hcm : c = m := by omega
      subst hcm
      unfold usfft2dStep
      exact usfft2dFill_filledOK _ _ _ _ _ _ _ hcn
    · -- the compute of step m transforms chunk m-1
      intro c hc hcn j hj t ht
      have hcm : m = c + 1 := by omega
      subst hcm
      unfold usfft2dStep
      rw [usfft2dFill_gout, usfft2dDrain_gout]
      have hg : 0 < c + 1 ∧ c + 1 < nchunkOf (deth / 2 + 1) dethc + 1 := by omega
      have h1 := usfft2dCompute_gout_self (nchunkOf (deth / 2 + 1) dethc) (c + 1)
        K S hg j t
      simp only [Nat.add_sub_cancel] at h1
      rw [h1]
      exact hK c hcn _ (ihA c rfl hcn) j hj t ht
    · -- the drain of step m copies transformed chunk m-2 to the host
      intro c t hc ht j hj
      unfold usfft2dStep
      rw [usfft2dFill_out]
      have hcn : c < nchunkOf (deth / 2 + 1) dethc :=
        lt_nchunk_of_sz_pos _ _ c hC (by omega)
      by_cases hold : c + 3 ≤ m
      · have hdisj : chunkSt dethc c + t < chunkSt dethc (m - 2) := by
          have h3 : chunkEnd (deth / 2 + 1) dethc c ≤ chunkSt dethc (m - 2) :=
            chunkEnd_le_chunkSt_of_lt _ _ c (m - 2) (by omega)
          have h4 : chunkSt dethc c + t < chunkEnd (deth / 2 + 1) dethc c := by
            unfold chunkSz at ht; omega
          omega
        rw [usfft2dDrain_out_lo _ _ _ _ _ _ _ hdisj, usfft2dCompute_out]
        exact ihC c t hold ht j hj
      · have hcm : m = c + 2 := by omega
        subst hcm
        have h2 : 1 < c + 2 := by omega
        have hlo : chunkSt dethc c ≤ chunkSt dethc c + t := Nat.le_add_right _ _
        have hhi : chunkSt dethc c + t < chunkEnd (deth / 2 + 1) dethc c := by
          unfold chunkSz at ht; omega
        have h5 := usfft2dDrain_out_in deth dethc n1 (c + 2)
          (usfft2dCompute (nchunkOf (deth / 2 + 1) dethc) (c + 2) K S)
          j (chunkSt dethc c + t) h2 hj
        simp only [Nat.add_sub_cancel] at h5
        rw [h5 hlo hhi]
        have hne : c % 2 ≠ (c + 2 - 1) % 2 := by omega
        rw [usfft2dCompute_gout_ne _ _ _ _ _ hne]
        have h6 := ihB c rfl hcn j hj (chunkSt dethc c + t - chunkSt dethc c) (by omega)
        rw [Nat.add_sub_cancel_left] at h6
        rw [Nat.add_sub_cancel_left]
        exact h6

/-- `usfft2d_chunks` leaves in the host destination exactly the
whole-array transform, provided the chunk-indexed kernel commutes with
slicing along the driven axis. -/
theorem usfft2d_chunks_out {α β : Type} (deth ntheta n1 dethc : Nat) (hC : 0 < dethc)
    (K : Nat → (Nat → Nat → α) → Nat → Nat → β) (F : Nat → Nat → β)
    (inp : Nat → Nat → α) (init : USt α β)
    (hK : ∀ c, c < nchunkOf (deth / 2 + 1) dethc →
      ∀ g, FilledOK deth ntheta dethc inp c g →
        ∀ j, j < n1 → ∀ t, t < chunkSz (deth / 2 + 1) dethc c →
          K c g j t = F j (chunkSt dethc c + t)) :
    ∀ j, j < n1 → ∀ i, i < deth / 2 + 1 →
      (usfft2d_chunks deth ntheta n1 dethc K inp init).out j i = F j i := by
  intro j hj i hi
  obtain ⟨c, hcn, hlo, hhi⟩ := chunk_cover (deth / 2 + 1) dethc i hC hi
  have h1 := (usfft2dIter_inv deth ntheta n1 dethc hC K F inp init hK
    (nchunkOf (deth / 2 + 1) dethc + 2)).2.2 c (i - chunkSt dethc c) (by omega)
    (by unfold chunkSz; omega) j hj
  rw [Nat.add_sub_cancel' hlo] at h1
  exact h1

/-- C4: the mirror region written by the fill phase of `usfft2d_chunks`.
If the host source rows satisfy the Hermitian r2c symmetry
`inp[j, (deth - r) % deth] = conj(inp[j, r])` (they hold the r2c FFT of
real data), then for every chunk `c` and theta-row `j` the mirror region
of device row `j + ntheta` holds the conjugated primary chunk
`inp[j, st:end]` in reversed order, including the one-off first-chunk
correction that avoids wraparound. -/
theorem c4_hermitian_mirror {α β : Type} (deth ntheta dethc : Nat) (conj : α → α)
    (inp : Nat → Nat → α) (c : Nat) (s : USt α β) (hd : 0 < deth) (hC : 0 < dethc)
    (hc : c < nchunkOf (deth / 2 + 1) dethc)
    (hHerm : ∀ j r, j < ntheta → r < deth → inp j ((deth - r) % deth) = conj (inp j r)) :
    ∀ j, j < ntheta → ∀ t, t < chunkSz (deth / 2 + 1) dethc c →
      (usfft2dFill deth ntheta dethc (nchunkOf (deth / 2 + 1) dethc) c inp s).gin
          (c % 2) (j + ntheta) (dethc - chunkSz (deth / 2 + 1) dethc c + t) =
        conj (inp j (chunkEnd (deth / 2 + 1) dethc c - 1 - t)) := by
  intro j hj t ht
  have h1 := (usfft2dFill_filledOK deth ntheta dethc _ c inp s hc).2 j hj t ht
  rw [h1]
  have hEndLe : chunkEnd (deth / 2 + 1) dethc c ≤ deth / 2 + 1 := chunkEnd_le _ _ _
  have hStLe : chunkSt dethc c ≤ chunkEnd (deth / 2 + 1) dethc c - 1 - t := by
    unfold chunkSz at ht
    omega
  have hr : chunkEnd (deth / 2 + 1) dethc c - 1 - t < deth := by omega
  unfold mirrorVal
  by_cases h0 : c = 0 ∧ t = chunkSz (deth / 2 + 1) dethc c - 1
  · rw [if_pos h0]
    have hr0 : chunkEnd (deth / 2 + 1) dethc c - 1 - t = 0 := by
      obtain ⟨h0c, h0t⟩ := h0
      subst h0c
      unfold chunkSz chunkSt at h0t ht
      omega
    rw [hr0]
    have h2 := hHerm j 0 hj (by omega)
    rw [Nat.sub_zero, Nat.mod_self] at h2
    exact h2
  · rw [if_neg h0]
    have h2 := hHerm j (chunkEnd (deth / 2 + 1) dethc c - 1 - t) hj hr
    have hpos : 0 < chunkEnd (deth / 2 + 1) dethc c - 1 - t := by
      rcases Nat.eq_zero_or_pos c with hc0 | hc0
      · subst hc0
        have hne : ¬t = chunkSz (deth / 2 + 1) dethc 0 - 1 := fun hcon =>
          h0 ⟨rfl, hcon⟩
        unfold chunkSz chunkSt at ht hne
        omega
      · have : dethc ≤ chunkSt dethc c := by
          unfold chunkSt
          calc dethc = 1 * dethc := (Nat.one_mul _).symm
          _ ≤ c * dethc := Nat.mul_le_mul_right _ hc0
        omega
    have hmod : (deth - (chunkEnd (deth / 2 + 1) dethc c - 1 - t)) % deth =
        deth - chunkEnd (deth / 2 + 1) dethc c + 1 + t := by
      rw [Nat.mod_eq_of_lt (by omega)]
      omega
    rw [hmod] at h2
    exact h2

/-- C1: for every chunk size `C > 0` along the driven axis (dividing the
axis length or not), each of the three chunk iterators leaves in the host
destination buffer exactly the whole-array transform of the host source
(the concatenation of per-chunk outputs at offsets
`[k*C, min(aLen,(k+1)*C))`), under the hypothesis that the stage's
transform kernel commutes with slicing along the driven axis: for
`usfft1d_chunks` and `fft2_chunks` the slot kernels act elementwise along
it (`Ff`, `F` are their per-element actions), and for `usfft2d_chunks` the
chunk-indexed kernel maps any correctly filled slot of chunk `c` to the
rows `[st, end)` of the whole-array transform `F`. -/
theorem c1_chunks_refine_whole :
    (∀ (α β : Type) (n1 n1c : Nat), 0 < n1c →
      ∀ (usfft1dAdj : (Nat → α) → Nat → β) (F : α → β),
        (∀ g j, usfft1dAdj g j = F (g j)) →
          ∀ (inp_t : Nat → α) (init : PipeSt α β) (i : Nat), i < n1 →
            (usfft1d_chunks n1 n1c usfft1dAdj inp_t init).out i = F (inp_t i)) ∧
      (∀ (α β : Type) (deth ntheta n1 dethc : Nat), 0 < dethc →
        ∀ (K : Nat → (Nat → Nat → α) → Nat → Nat → β) (F : Nat → Nat → β)
          (inp : Nat → Nat → α) (init : USt α β),
          (∀ c, c < nchunkOf (deth / 2 + 1) dethc →
            ∀ g, FilledOK deth ntheta dethc inp c g →
              ∀ j, j < n1 → ∀ t, t < chunkSz (deth / 2 + 1) dethc c →
                K c g j t = F j (chunkSt dethc c + t)) →
            ∀ j, j < n1 → ∀ i, i < deth / 2 + 1 →
              (usfft2d_chunks deth ntheta n1 dethc K inp init).out j i = F j i) ∧
      (∀ (α β : Type) (ntheta nthetac : Nat), 0 < nthetac →
        ∀ (fbpFilter : (Nat → α) → Nat → α) (fft2dFwd : (Nat → α) → Nat → β)
          (Ff : α → α) (F : α → β),
          (∀ g j, fbpFilter g j = Ff (g j)) → (∀ g j, fft2dFwd g j = F (g j)) →
            ∀ (inp : Nat → α) (init : PipeSt α β) (i : Nat), i < ntheta →
              (fft2_chunks ntheta nthetac fbpFilter fft2dFwd inp init).out i =
                F (Ff (inp i))) := by
  refine ⟨?_, ?_, ?_⟩
  · intro α β n1 n1c hC usfft1dAdj F hF inp_t init i hi
    exact pipeRun_out n1 n1c hC (fun g => g) usfft1dAdj (fun a => a) F
      (fun g j => rfl) hF inp_t init i hi
  · intro α β deth ntheta n1 dethc hC K F inp init hK j hj i hi
    exact usfft2d_chunks_out deth ntheta n1 dethc hC K F inp init hK j hj i hi
  · intro α β ntheta nthetac hC fbpFilter fft2dFwd Ff F hFf hF inp init i hi
    exact pipeRun_out ntheta nthetac hC fbpFilter fft2dFwd Ff F hFf hF inp init i hi

/-- Witness for C1: concrete runs of the three iterators on short axes
with chunk sizes that do not divide them evenly, with concrete
slicing-compatible kernels. -/
theorem c1_chunks_refine_whole_witness :
    (usfft1d_chunks 3 2 (fun g j => g j + 1) (fun i => (i : Int))
        ⟨fun _ => 0, fun _ _ => 0, fun _ _ => 0⟩).out 2 = (2 : Int) + 1 ∧
      (usfft2d_chunks 4 1 1 2 (fun _ g j t => g 0 t) (fun _ i => (i : Int))
          ⟨fun _ _ => 0, fun _ _ _ => 0, fun _ _ _ => 0⟩).out 0 2 = (2 : Int) ∧
      (fft2_chunks 3 2 (fun g j => g j * 2) (fun g j => g j + 5) (fun i => (i : Int))
          ⟨fun _ => 0, fun _ _ => 0, fun _ _ => 0⟩).out 1 = (1 : Int) * 2 + 5 := by
  refine ⟨?_, ?_, ?_⟩
  · exact c1_chunks_refine_whole.1 Int Int 3 2 (by decide) _ (fun a => a + 1)
      (fun g j => rfl) _ _ 2 (by decide)
  · exact c1_chunks_refine_whole.2.1 Int Int 4 1 1 2 (by decide) _
      (fun _ i => (i : Int)) _ _
      (fun c hc g hg j hj t ht => hg.1 0 (by decide) t ht) 0 (by decide) 2 (by decide)
  · exact c1_chunks_refine_whole.2.2 Int Int 3 2 (by decide) _ _ (fun a => a * 2)
      (fun a => a + 5) (fun g j => rfl) (fun g j => rfl) _ _ 1 (by decide)

/-- C5: for every axis length and every positive chunk size `C` (including
when `C` does not divide the axis length), the slice bounds
`st = k*C`, `end = min(aLen, (k+1)*C)` used by the chunk iterators satisfy
`st ≤ end ≤ aLen` for every chunk, and the chunks cover every index of the
axis, so all buffer accesses are in range and the output has the full
configured size. -/
theorem c5_chunk_bounds (aLen C : Nat) (hC : 0 < C) :
    (∀ c, c < nchunkOf aLen C →
      chunkSt C c ≤ chunkEnd aLen C c ∧ chunkEnd aLen C c ≤ aLen) ∧
      (∀ i, i < aLen → ∃ c, c < nchunkOf aLen C ∧
        chunkSt C c ≤ i ∧ i < chunkEnd aLen C c) ∧
      aLen ≤ nchunkOf aLen C * C := by
  refine ⟨?_, ?_, le_nchunk_mul aLen C hC⟩
  · intro c hc
    exact ⟨chunkSt_le_chunkEnd aLen C c hC hc, chunkEnd_le aLen C c⟩
  · intro i hi
    exact chunk_cover aLen C i hC hi

/-- Witness for C5 at the spec's boundary example `ntheta = 90`,
`nthetac = 32`: three chunks, the last one of 26 elements. -/
theorem c5_chunk_bounds_witness :
    (chunkSt 32 2 ≤ chunkEnd 90 32 2 ∧ chunkEnd 90 32 2 ≤ 90) ∧
      nchunkOf 90 32 = 3 ∧ chunkEnd 90 32 2 = 90 :=
  ⟨(c5_chunk_bounds 90 32 (by decide)).1 2 (by decide), by decide, by decide⟩

/-- Witness for C4: a concrete Hermitian-symmetric host array over
Gaussian integers (pairs with conjugation negating the second component),
`deth = 4`, `dethc = 2`, first chunk (`c = 0`, exercising the one-off
correction at mirror position `-1`). -/
theorem c4_hermitian_mirror_witness :
    (usfft2dFill 4 1 2 (nchunkOf (4 / 2 + 1) 2) 0
        (fun _ r => if r = 0 then ((5, 0) : Int × Int) else if r = 1 then (1, 2)
          else if r = 2 then (7, 0) else (1, -2))
        (⟨fun _ _ => (0, 0), fun _ _ _ => (0, 0), fun _ _ _ => (0, 0)⟩ :
          USt (Int × Int) (Int × Int))).gin
      (0 % 2) (0 + 1) (2 - chunkSz (4 / 2 + 1) 2 0 + 1) =
      ((5, 0) : Int × Int) := by
  have h := @c4_hermitian_mirror (Int × Int) (Int × Int) 4 1 2
    (fun p => (p.1, -p.2))
    (fun _ r => if r = 0 then ((5, 0) : Int × Int) else if r = 1 then (1, 2)
      else if r = 2 then (7, 0) else (1, -2)) 0
    (⟨fun _ _ => (0, 0), fun _ _ _ => (0, 0), fun _ _ _ => (0, 0)⟩ :
      USt (Int × Int) (Int × Int)) (by decide) (by decide) (by decide)
    (by
      intro j r hj hr
      interval_cases r <;> rfl)
    0 (by decide) 1 (by decide)
  exact h.trans (by decide)

/-!
Model of `fbp_filter_center`.  A projection chunk is
`data[i0, i1, j]` (`i0` the projection index, `i1` the detector row,
`j < n2` the detector column); `ne = 4*detw` is the extended width.  The
spec treats the FFT and filter kernels as opaque computational primitives,
so the real-FFT pair enters as parameters `Ffwd`/`Finv` and the complex
exponential as the parameter `expPhase` (standing for
`x ↦ exp(-2*pi*i*x)`), over an arbitrary field of scalars.
-/

/-- Edge-replicate padding by `p` entries on each side of a length-`n2`
row: `cp.pad(..., ((0,0),(0,0),(p,p)), mode='edge')` along the
detector-width axis. -/
def padEdge {R : Type} (n2 p : Nat) (row : Nat → R) : Nat → R := fun j =>
  if j < p then row 0 else if j < p + n2 then row (j - p) else row (n2 - 1)

/-- The real-FFT frequency grid `cp.fft.rfftfreq(ne)`: `k / ne`. -/
def rfftfreq {R : Type} [Field R] (ne : Nat) : Nat → R := fun k => (k : R) / (ne : R)

/-- Modelled from the spec: the FBP filter kernel
`FBPFilter.filter(tmp, w, stream)` (module `tomocupy.reconstruction.fbp_filter`,
not under `src/`) multiplies the real-FFT of each padded row by the weight
table `w` and inverse-transforms in place:
`tmp = irfft(w * rfft(tmp, axis=2), axis=2)`.  The real-FFT pair is opaque
(spec section 1 excludes the numerical kernels) and is passed as the
parameters `Ffwd`/`Finv`. -/
def filterKernel {R : Type} (Ffwd Finv : (Nat → R) → Nat → R) [Mul R]
    (w : Nat → R) (row : Nat → R) : Nat → R :=
  Finv (fun k => w k * Ffwd row k)

/-- Shallow embedding of `fbp_filter_center(self, data, sht=0)`.
`sht = none` models the scalar default `sht=0`, on which
`sht[:, cp.newaxis]` raises a `TypeError` (an int is not subscriptable);
`none` is also returned when the padded width does not match the filter's
configured width `ne` or when the cropped width
`(ne//2+n2//2) - (ne//2-n2//2)` does not match the destination width `n2`
(the in-place assignment `data[:] = tmp[:, :, ne//2-n2//2:ne//2+n2//2]`
fails to broadcast), which happens exactly for odd `n2`. -/
def fbp_filter_center {R : Type} [Field R] (n2 ne : Nat) (center : R)
    (wfilter : Nat → R) (expPhase : R → R) (Ffwd Finv : (Nat → R) → Nat → R)
    (data : Nat → Nat → Nat → R) (sht : Option (Nat → R)) :
    Option (Nat → Nat → Nat → R) :=
  match sht with
  | none => none
  | some sh =>
    let pd := ne / 2 - n2 / 2
    let tmp : Nat → Nat → Nat → R := fun i0 i1 => padEdge n2 pd (data i0 i1)
    let t : Nat → R := rfftfreq ne
    let w : Nat → Nat → R := fun i0 k =>
      wfilter k * expPhase (t k * (-center + sh i0 + (n2 : R) / 2))
    let tmp2 : Nat → Nat → Nat → R := fun i0 i1 =>
      filterKernel Ffwd Finv (w i0) (tmp i0 i1)
    if n2 + 2 * pd = ne ∧ (ne / 2 + n2 / 2) - (ne / 2 - n2 / 2) = n2 then
      some (fun i0 i1 j => tmp2 i0 i1 (ne / 2 - n2 / 2 + j))
    else none

/-- The filter/center stage exactly as claim C7 states it: edge-replicate
pad by `ne/2 - n2/2` on each side, multiply by
`wfilter * exp(-2*pi*i*f*(-center + sht + n2/2))` on the extended-width
real-FFT frequency grid, crop the central `n2` columns; with the same
opaque FFT pair. -/
def fbp_filter_center_spec {R : Type} [Field R] (n2 ne : Nat) (center : R)
    (wfilter : Nat → R) (expPhase : R → R) (Ffwd Finv : (Nat → R) → Nat → R)
    (data : Nat → Nat → Nat → R) (sh : Nat → R) : Nat → Nat → Nat → R :=
  fun i0 i1 j =>
    filterKernel Ffwd Finv
      (fun k => wfilter k * expPhase (rfftfreq ne k * (-center + sh i0 + (n2 : R) / 2)))
      (padEdge n2 (ne / 2 - n2 / 2) (data i0 i1)) ((ne - n2) / 2 + j)

instance fact_prime_17 : Fact (Nat.Prime 17) := ⟨by norm_num⟩

/-- A concrete discrete Fourier pair modulo 17 (2 has multiplicative order
8 in `ZMod 17`, `9 = 2⁻¹`, `15 = 8⁻¹`), usable to instantiate the opaque
FFT parameters at concrete inputs of extended width 8. -/
def dft17 (x : Nat → ZMod 17) : Nat → ZMod 17 := fun k =>
  ∑ j ∈ Finset.range 8, x j * 2 ^ (j * k)

/-- The inverse transform of `dft17`. -/
def idft17 (y : Nat → ZMod 17) : Nat → ZMod 17 := fun j =>
  15 * ∑ k ∈ Finset.range 8, y k * 9 ^ (j * k)

/-- C6 counterexample: with the all-zero filter table, `fbp_filter_center`
does not return the input unchanged.  At detector width `n2 = 2`,
`ne = 4*n2 = 8`, all-one input data, zero shift and the concrete DFT pair
modulo 17, the output at `(0,0,0)` is `0`, not the input value `1`. -/
theorem c6_counterexample :
    (fbp_filter_center 2 8 (0 : ZMod 17) (fun _ => 0) (fun _ => 1) dft17 idft17
        (fun _ _ _ => 1) (some (fun _ => 0))).map (fun f => f 0 0 0) ≠
      some (1 : ZMod 17) := by
  decide

/-- The filter kernel applied with an everywhere-zero weight table yields
zero, provided the opaque inverse FFT maps the zero spectrum to zero. -/
theorem filterKernel_zero {R : Type} [Field R] (Ffwd Finv : (Nat → R) → Nat → R)
    (w g : Nat → R) (hw : ∀ k, w k = 0)
    (hFinv : ∀ j, Finv (fun _ => (0 : R)) j = 0) (x : Nat) :
    filterKernel Ffwd Finv w g x = 0 := by
  unfold filterKernel
  have hz : (fun k => w k * Ffwd g k) = fun _ => (0 : R) := by
    funext k
    rw [hw, zero_mul]
  rw [hz]
  exact hFinv x

/-- C6 (amended): applying `fbp_filter_center` with an all-zero filter
table returns the all-zero chunk (not the input unchanged): the weight
table vanishes, so the inverse transform is applied to the zero spectrum
(`hFinv` is the corresponding property of the opaque inverse FFT). -/
theorem c6_zero_filter_zero_output {R : Type} [Field R] (ne n2 : Nat)
    (center : R) (expPhase : R → R) (Ffwd Finv : (Nat → R) → Nat → R)
    (data : Nat → Nat → Nat → R) (sh : Nat → R)
    (hFinv : ∀ j, Finv (fun _ => (0 : R)) j = 0)
    (hn2 : 2 ∣ n2) (hne : 2 ∣ ne) (hle : n2 ≤ ne) (i0 i1 j : Nat) :
    (fbp_filter_center n2 ne center (fun _ => 0) expPhase Ffwd Finv data
        (some sh)).map (fun f => f i0 i1 j) = some 0 := by
  simp only [fbp_filter_center]
  rw [if_pos ⟨by omega, by omega⟩, Option.map_some']
  congr 1
  exact filterKernel_zero Ffwd Finv _ _ (fun k => zero_mul _) hFinv _

/-- Witness for C6 (amended): a concrete instance where the result is
`some` and the output value is zero. -/
theorem c6_zero_filter_zero_output_witness :
    (fbp_filter_center 2 8 (0 : ZMod 17) (fun _ => 0) (fun _ => 1) dft17 idft17
        (fun _ _ _ => 1) (some (fun _ => 0))).map (fun f => f 0 0 1) = some 0 :=
  c6_zero_filter_zero_output 8 2 0 (fun _ => 1) dft17 idft17 (fun _ _ _ => 1)
    (fun _ => 0) (fun j => by simp [idft17]) ⟨1, rfl⟩ ⟨4, rfl⟩ (by decide) 0 0 1

/-- C7 counterexample: for odd detector width (`n2 = 3`, `ne = 4*n2 = 12`)
`fbp_filter_center` does not return a filtered chunk at all: the padded
width is `ne+1` and the crop `ne//2-n2//2 : ne//2+n2//2` has width
`n2 - 1`, so the filter-kernel shape precondition and the in-place
assignment both fail. -/
theorem c7_counterexample :
    fbp_filter_center 3 12 (0 : ZMod 17) (fun _ => 1) (fun _ => 1) dft17 idft17
        (fun _ _ _ => 0) (some (fun _ => 0)) = none := by
  rfl

/-- C7 (amended): for even detector width `n2` and even extended width
`ne ≥ n2` (the engine always has `ne = 4*detw`), `fbp_filter_center`
edge-replicate pads by `ne/2 - n2/2` on each side, multiplies by
`wfilter * exp(-2*pi*i*f*(-center+sht+n2/2))` on the extended-width
real-FFT grid, crops the central `n2` columns and returns the chunk of the
input's shape — exactly the claim's description
(`fbp_filter_center_spec`). -/
theorem c7_filter_center_spec {R : Type} [Field R] (n2 ne : Nat) (center : R)
    (wfilter : Nat → R) (expPhase : R → R) (Ffwd Finv : (Nat → R) → Nat → R)
    (data : Nat → Nat → Nat → R) (sh : Nat → R)
    (hn2 : 2 ∣ n2) (hne : 2 ∣ ne) (hle : n2 ≤ ne) :
    fbp_filter_center n2 ne center wfilter expPhase Ffwd Finv data (some sh) =
      some (fbp_filter_center_spec n2 ne center wfilter expPhase Ffwd Finv data sh) := by
  simp only [fbp_filter_center]
  rw [if_pos ⟨by omega, by omega⟩]
  congr 1
  funext i0 i1 j
  simp only [fbp_filter_center_spec]
  have hcrop : (ne - n2) / 2 = ne / 2 - n2 / 2 := by omega
  rw [hcrop]

/-- Witness for C7 (amended): a concrete even-width instance. -/
theorem c7_filter_center_spec_witness :
    fbp_filter_center 2 8 (0 : ZMod 17) (fun _ => 1) (fun _ => 1) dft17 idft17
        (fun _ _ _ => 1) (some (fun _ => 0)) =
      some (fbp_filter_center_spec 2 8 (0 : ZMod 17) (fun _ => 1) (fun _ => 1)
        dft17 idft17 (fun _ _ _ => 1) (fun _ => 0)) :=
  c7_filter_center_spec 2 8 0 (fun _ => 1) (fun _ => 1) dft17 idft17
    (fun _ _ _ => 1) (fun _ => 0) ⟨1, rfl⟩ ⟨4, rfl⟩ (by decide)

/-- C8: calling `fbp_filter_center(data)` without the optional shift
argument does not succeed: the default is the scalar `sht = 0` and
`sht[:, cp.newaxis]` raises a `TypeError` (modelled as `none`); the call
sites always pass an explicit all-zero shift array instead. -/
theorem c8_default_shift_fails {R : Type} [Field R] (n2 ne : Nat) (center : R)
    (wfilter : Nat → R) (expPhase : R → R) (Ffwd Finv : (Nat → R) → Nat → R)
    (data : Nat → Nat → Nat → R) :
    fbp_filter_center n2 ne center wfilter expPhase Ffwd Finv data none = none :=
  rfl

/-- Witness for C8: the failure of the default-shift call at a concrete
configuration. -/
theorem c8_default_shift_fails_witness :
    fbp_filter_center 2 8 (0 : ZMod 17) (fun _ => 1) (fun _ => 1) dft17 idft17
      (fun _ _ _ => 1) none = none :=
  c8_default_shift_fails 2 8 0 (fun _ => 1) (fun _ => 1) dft17 idft17
    (fun _ _ _ => 1)

/-!
Host-side fork-join helpers `copy` and `copyTransposed`.  Each spawns
`nthreads` workers over disjoint ranges of one axis and joins them all;
since the ranges are disjoint the parallel execution equals the
sequential fold over the workers.  A 3-D array is its shape triple plus a
total value function; `np.empty` junk is the parameter `e`.
-/

/-- A 3-D host array: shape and values. -/
structure Arr3 (γ : Type) where
  d0 : Nat
  d1 : Nat
  d2 : Nat
  val : Nat → Nat → Nat → γ

/-- `copy(u, res)`: worker `k` executes `res[st:end] = u[st:end]` with
`st = k*nchunk`, `end = min((k+1)*nchunk, u.shape[0])`,
`nchunk = ceil(u.shape[0]/nthreads)`; the workers' ranges are disjoint, so
the join of the `nthreads` threads equals their sequential fold. -/
def copy {γ : Type} (len0 : Nat) (u res : Nat → Nat → Nat → γ) (nthreads : Nat) :
    Nat → Nat → Nat → γ :=
  (List.range nthreads).foldl
    (fun r k => fun i j c =>
      if k * nchunkOf len0 nthreads ≤ i ∧
          i < min ((k + 1) * nchunkOf len0 nthreads) len0 then
        u i j c
      else r i j c)
    res

/-- `copyTransposed(u)`: allocates `res` of shape
`(u.shape[1], u.shape[0], u.shape[2])` and worker `k` executes
`res[st:end] = u[:, st:end].swapaxes(0,1)` over its range of the new
leading axis. -/
def copyTransposed {γ : Type} (u : Arr3 γ) (e : γ) (nthreads : Nat) : Arr3 γ :=
  { d0 := u.d1, d1 := u.d0, d2 := u.d2,
    val := (List.range nthreads).foldl
      (fun r k => fun i j c =>
        if k * nchunkOf u.d1 nthreads ≤ i ∧
            i < min ((k + 1) * nchunkOf u.d1 nthreads) u.d1 then
          u.val j i c
        else r i j c)
      (fun _ _ _ => e) }

theorem copyTransposed_val_covered {γ : Type} (u : Arr3 γ) (e : γ) (nthreads : Nat) :
    ∀ m, m ≤ nthreads → ∀ i, i < min (m * nchunkOf u.d1 nthreads) u.d1 → ∀ j c,
      ((List.range m).foldl
        (fun r k => fun i j c =>
          if k * nchunkOf u.d1 nthreads ≤ i ∧
              i < min ((k + 1) * nchunkOf u.d1 nthreads) u.d1 then
            u.val j i c
          else r i j c)
        (fun _ _ _ => e)) i j c = u.val j i c := by
  intro m
  induction m with
  | zero => intro _ i hi; omega
  | succ m ih =>
    intro hm i hi j c
    rw [List.range_succ, List.foldl_append, List.foldl_cons, List.foldl_nil]
    by_cases hcase : m * nchunkOf u.d1 nthreads ≤ i ∧
        i < min ((m + 1) * nchunkOf u.d1 nthreads) u.d1
    · rw [if_pos hcase]
    · rw [if_neg hcase]
      refine ih (by omega) i ?_ j c
      have h1 : m * nchunkOf u.d1 nthreads ≤ (m + 1) * nchunkOf u.d1 nthreads :=
        Nat.mul_le_mul_right _ (by omega)
      omega

/-- C9: `copyTransposed` on an input of shape `(A, B, C)` yields shape
`(B, A, C)` with `result[i,j,k] = u[j,i,k]` for all valid indices, for
every worker count `nthreads ≥ 1`; in particular the result on valid
indices does not depend on the worker count (the thread ranges partition
the axis). -/
theorem c9_copyTransposed (γ : Type) (u : Arr3 γ) (e : γ) (nthreads : Nat)
    (h1 : 1 ≤ nthreads) :
    ((copyTransposed u e nthreads).d0 = u.d1 ∧
      (copyTransposed u e nthreads).d1 = u.d0 ∧
      (copyTransposed u e nthreads).d2 = u.d2) ∧
      (∀ i j c, i < u.d1 → j < u.d0 → c < u.d2 →
        (copyTransposed u e nthreads).val i j c = u.val j i c) ∧
      (∀ n2, 1 ≤ n2 → ∀ i j c, i < u.d1 → j < u.d0 → c < u.d2 →
        (copyTransposed u e nthreads).val i j c =
          (copyTransposed u e n2).val i j c) := by
  have hval : ∀ nt, 1 ≤ nt → ∀ i j c, i < u.d1 →
      (copyTransposed u e nt).val i j c = u.val j i c := by
    intro nt hnt i j c hi
    have hcov : u.d1 ≤ nt * nchunkOf u.d1 nt := by
      have := le_nchunk_mul u.d1 nt hnt
      rw [Nat.mul_comm]
      exact this
    exact copyTransposed_val_covered u e nt nt (le_refl nt) i (by omega) j c
  refine ⟨⟨rfl, rfl, rfl⟩, ?_, ?_⟩
  · intro i j c hi _ _
    exact hval nthreads h1 i j c hi
  · intro n2 hn2 i j c hi _ _
    rw [hval nthreads h1 i j c hi, hval n2 hn2 i j c hi]

/-- Witness for C9: a concrete `2 x 3 x 1` transpose with 4 worker
threads (more threads than rows). -/
theorem c9_copyTransposed_witness :
    (copyTransposed (⟨2, 3, 1, fun i j _ => (10 * i + j : Int)⟩ : Arr3 Int)
        0 4).val 2 1 0 = (12 : Int) :=
  ((c9_copyTransposed Int ⟨2, 3, 1, fun i j _ => (10 * i + j : Int)⟩ 0 4
    (by decide)).2.1 2 1 0 (by decide) (by decide) (by decide)).trans (by decide)

/-!
The pipeline orchestrator `rec_lam`.  The engine owns the stage-boundary
pinned buffers `pa33, pa22, pa11, pa00` and the device double buffers
(all allocated in `__init__` with `np.empty`/`cp.empty`, hence distinct
from any caller array); `rec_lam(data)` copies the caller's projections
into `pa33`, runs the three chunk stages, transposes the result and
dispatches it to the writer.  Scalar values are an abstract type `R`;
buffer entries are `R`.
-/

/-- The engine-owned state of `BackprojLamFourierParallel`: configured
dimensions, pinned stage-boundary host buffers, device double buffers,
and the volume handed to the writer by `write_parallel`. -/
structure Engine (R : Type) where
  n0 : Nat
  n1 : Nat
  n2 : Nat
  ntheta : Nat
  nthetac : Nat
  deth : Nat
  dethc : Nat
  n1c : Nat
  pa33 : Nat → Nat → Nat → R
  pa22 : Nat → Nat → Nat → R
  pa11 : Nat → Nat → Nat → R
  pa00 : Nat → Nat → Nat → R
  ga55 : Nat → Nat → Nat → Nat → R
  ga44 : Nat → Nat → Nat → Nat → R
  ga33 : Nat → Nat → Nat → Nat → R
  ga22 : Nat → Nat → Nat → Nat → R
  ga11 : Nat → Nat → Nat → Nat → R
  ga00 : Nat → Nat → Nat → Nat → R
  outVol : Arr3 R

/-- The caller-visible state of one `rec_lam` call: the engine and the
caller's projection array `data`. -/
structure RecSt (R : Type) where
  engine : Engine R
  data : Arr3 R

/-- Shallow embedding of `rec_lam(self, data)`:
`self.copy(data, self.pa33)`, then
`fft2_chunks(pa22, pa33, ga44, ga55)`,
`usfft2d_chunks(pa11, pa22, ga22, ga33, theta, phi)`,
`usfft1d_chunks(pa00, pa11, ga00, ga11, phi)`,
`u = copyTransposed(pa00)`, `write_parallel(u)` (the volume handed to the
external writer is recorded in `outVol`).  The transform kernels (with
their angles applied) are opaque parameters; `e` is the `np.empty` junk
of the freshly allocated transpose target.  Every write goes to an
engine-owned buffer or a fresh array; the caller's `data` is only read
(by `copy`) and returned unchanged. -/
def rec_lam {R : Type}
    (fbpFilterSlot : (Nat → (Nat → Nat → R)) → Nat → (Nat → Nat → R))
    (fft2dFwd : (Nat → (Nat → Nat → R)) → Nat → (Nat → Nat → R))
    (usfft2dAdj : Nat → (Nat → Nat → (Nat → R)) → Nat → Nat → (Nat → R))
    (usfft1dAdj : (Nat → (Nat → Nat → R)) → Nat → (Nat → Nat → R))
    (e : R) (st : RecSt R) : RecSt R :=
  let eng := st.engine
  let pa33n := copy st.data.d0 st.data.val eng.pa33 8
  let r1 := fft2_chunks eng.ntheta eng.nthetac fbpFilterSlot fft2dFwd
    (fun th => fun a b => pa33n th a b)
    ⟨fun th => fun a b => eng.pa22 th a b,
      fun p j => fun a b => eng.ga55 p j a b,
      fun p j => fun a b => eng.ga44 p j a b⟩
  let pa22n : Nat → Nat → Nat → R := fun th a b => r1.out th a b
  let r2 := usfft2d_chunks eng.deth eng.ntheta eng.n1 eng.dethc usfft2dAdj
    (fun j i => fun b => pa22n j i b)
    ⟨fun j i => fun b => eng.pa11 j i b,
      fun p j t => fun b => eng.ga33 p j t b,
      fun p j t => fun b => eng.ga22 p j t b⟩
  let pa11n : Nat → Nat → Nat → R := fun j i b => r2.out j i b
  let r3 := usfft1d_chunks eng.n1 eng.n1c usfft1dAdj
    (fun i1 => fun a b => pa11n i1 a b)
    ⟨fun i1 => fun a b => eng.pa00 i1 a b,
      fun p j => fun a b => eng.ga11 p j a b,
      fun p j => fun a b => eng.ga00 p j a b⟩
  let pa00n : Nat → Nat → Nat → R := fun i1 a b => r3.out i1 a b
  let u := copyTransposed ⟨eng.n1, eng.n0, eng.n2, pa00n⟩ e 8
  { engine :=
      { eng with
        pa33 := pa33n, pa22 := pa22n, pa11 := pa11n, pa00 := pa00n,
        ga55 := fun p j a b => r1.gin p j a b,
        ga44 := fun p j a b => r1.gout p j a b,
        ga33 := fun p j t b => r2.gin p j t b,
        ga22 := fun p j t b => r2.gout p j t b,
        ga11 := fun p j a b => r3.gin p j a b,
        ga00 := fun p j a b => r3.gout p j a b,
        outVol := u },
    data := st.data }

/-- C10: `rec_lam` never modifies its input projection array: the first
action copies `data` into the engine-owned pinned buffer `pa33` (`copy`
only reads its source), and every subsequent stage, transpose and write
operates on engine-owned buffers and freshly allocated arrays, so the
caller's array is unchanged when `rec_lam` returns. -/
theorem c10_rec_lam_preserves_data {R : Type}
    (fbpFilterSlot : (Nat → (Nat → Nat → R)) → Nat → (Nat → Nat → R))
    (fft2dFwd : (Nat → (Nat → Nat → R)) → Nat → (Nat → Nat → R))
    (usfft2dAdj : Nat → (Nat → Nat → (Nat → R)) → Nat → Nat → (Nat → R))
    (usfft1dAdj : (Nat → (Nat → Nat → R)) → Nat → (Nat → Nat → R))
    (e : R) (st : RecSt R) :
    (rec_lam fbpFilterSlot fft2dFwd usfft2dAdj usfft1dAdj e st).data = st.data :=
  rfl

/-- Witness for C10: a concrete one-voxel reconstruction state. -/
theorem c10_rec_lam_preserves_data_witness :
    (rec_lam (fun g => g) (fun g => g) (fun _ g => g) (fun g => g) (0 : Int)
        ⟨⟨1, 1, 1, 1, 1, 1, 1, 1, fun _ _ _ => 0, fun _ _ _ => 0, fun _ _ _ => 0,
          fun _ _ _ => 0, fun _ _ _ _ => 0, fun _ _ _ _ => 0, fun _ _ _ _ => 0,
          fun _ _ _ _ => 0, fun _ _ _ _ => 0, fun _ _ _ _ => 0,
          ⟨0, 0, 0, fun _ _ _ => 0⟩⟩,
          ⟨1, 1, 1, fun _ _ _ => 7⟩⟩).data = ⟨1, 1, 1, fun _ _ _ => (7 : Int)⟩ :=
  c10_rec_lam_preserves_data (fun g => g) (fun g => g) (fun _ g => g) (fun g => g) 0
    ⟨⟨1, 1, 1, 1, 1, 1, 1, 1, fun _ _ _ => 0, fun _ _ _ => 0, fun _ _ _ => 0,
      fun _ _ _ => 0, fun _ _ _ _ => 0, fun _ _ _ _ => 0, fun _ _ _ _ => 0,
      fun _ _ _ _ => 0, fun _ _ _ _ => 0, fun _ _ _ _ => 0,
      ⟨0, 0, 0, fun _ _ _ => 0⟩⟩,
      ⟨1, 1, 1, fun _ _ _ => 7⟩⟩

end BackprojLamFourier
